import Mathlib

/-!
Verification of the extensible document-object contract of `aide`'s
`Tag` type (`src/crates/aide/src/openapi/tag.rs`).

The `Tag` record carries a required `name`, optional `description` and
`external_docs` fields, and an insertion-ordered `extensions` map
(`IndexMap<String, serde_json::Value>`). Builder methods (`Tag::new`,
`Tag::description`, `Tag::external_docs`, `Tag::extensions`) are embedded
directly from the source. The wire-format behaviour (the serde-derived
`Serialize`/`Deserialize` impls, shaped by the attributes
`skip_serializing_if`, `rename = "externalDocs"`, `flatten`, and by
`crate::util::deserialize_extensions`) is generated/out-of-tree code, so it
is modelled from the specification's serialization and deserialization
contracts.
-/

/-- The generic untyped wire value (`serde_json::Value`): null, bool,
number, string, array, or ordered object. Numbers are modelled as `Int`. -/
inductive Json where
  | null : Json
  | bool (b : Bool) : Json
  | num (n : Int) : Json
  | str (s : String) : Json
  | arr (xs : List Json) : Json
  | obj (kvs : List (String × Json)) : Json

/-- Insertion of one key/value pair into an insertion-ordered map modelled
as an association list (`IndexMap::insert` semantics): an existing key
keeps its position and takes the new value; a new key is appended. -/
def imInsert (m : List (String × Json)) (k : String) (v : Json) :
    List (String × Json) :=
  if k ∈ m.map Prod.fst then
    m.map (fun p => if p.1 = k then (k, v) else p)
  else
    m ++ [(k, v)]

/-- `IndexMap::extend`: left-to-right insertion of a sequence of pairs. -/
def imExtend (m : List (String × Json)) (pairs : List (String × Json)) :
    List (String × Json) :=
  pairs.foldl (fun acc p => imInsert acc p.1 p.2) m

/-- Modelled from the spec: the nested extensible object
`ExternalDocumentation` (its definition is not under `src/`): an optional
`description`, a required `url`, and — being itself an extensible object
per the spec's data model — its own insertion-ordered extensions map. -/
structure ExternalDocumentation where
  description : Option String := none
  url : String := ""
  extensions : List (String × Json) := []

/-- The `Tag` record from `src/crates/aide/src/openapi/tag.rs`. The
`IndexMap` of extensions is modelled as an insertion-ordered association
list; the map's key-uniqueness is an invariant of `IndexMap`, carried here
as a hypothesis where a theorem needs it. -/
structure Tag where
  name : String := ""
  description : Option String := none
  external_docs : Option ExternalDocumentation := none
  extensions : List (String × Json) := []

/-- `Tag::new`: required field from the argument, everything else default. -/
def Tag.new (name : String) : Tag :=
  { name }

/-- `Tag::description` (builder; primed because the field projection takes
the source name in Lean): sets the optional description. -/
def Tag.description' (t : Tag) (description : String) : Tag :=
  { t with description := some description }

/-- `Tag::external_docs` (builder): sets the optional external docs. -/
def Tag.external_docs' (t : Tag) (external_docs : ExternalDocumentation) : Tag :=
  { t with external_docs := some external_docs }

/-- `Tag::extensions` (builder): extends the existing extensions map with
the given pairs, `IndexMap::extend` semantics. -/
def Tag.extensions' (t : Tag) (pairs : List (String × Json)) : Tag :=
  { t with extensions := imExtend t.extensions pairs }

/-- Modelled from the spec: serialization of the nested
`ExternalDocumentation` object — optional fields emitted only when
present, required `url` always emitted, then every extension entry
appended in insertion order after the typed fields. -/
def ExternalDocumentation.serialize (e : ExternalDocumentation) : Json :=
  Json.obj
    ((match e.description with
      | some d => [("description", Json.str d)]
      | none => []) ++ [("url", Json.str e.url)] ++ e.extensions)

/-- The typed-field portion of `Tag`'s serialization: required `name`
unconditionally, each optional field only when present, `external_docs`
under its wire key `externalDocs`. -/
def Tag.serializeTyped (t : Tag) : List (String × Json) :=
  [("name", Json.str t.name)]
    ++ (match t.description with
        | some d => [("description", Json.str d)]
        | none => [])
    ++ (match t.external_docs with
        | some e => [("externalDocs", e.serialize)]
        | none => [])

/-- Modelled from the spec: serialization of a `Tag` to the ordered
sequence of top-level wire key/value pairs (the serde-derived `Serialize`
impl is generated code, not under `src/`): typed fields first, then every
extension entry in insertion order. -/
def Tag.serialize (t : Tag) : List (String × Json) :=
  t.serializeTyped ++ t.extensions

/-- Deserialization errors: a missing required field, or a value of the
wrong shape for a typed field (the error names the offending key and the
expected type). -/
inductive DeError where
  | missingRequiredField (field : String) : DeError
  | schemaTypeMismatch (key : String) (expected : String) : DeError
deriving DecidableEq

/-- Intermediate deserialization state for `ExternalDocumentation`:
the `description` and `url` fields seen so far, plus the extensions
collected from unmatched keys. -/
structure EdState where
  description : Option String := none
  url : Option String := none
  extensions : List (String × Json) := []

/-- Modelled from the spec: one step of `ExternalDocumentation`
deserialization — a recognized key binds to its typed field (last
occurrence wins), a value of the wrong shape fails, and any other key is
inserted into the nested extensions map. -/
def edStep (st : EdState) (kv : String × Json) : Except DeError EdState :=
  if kv.1 = "description" then
    match kv.2 with
    | Json.str s => Except.ok { st with description := some s }
    | _ => Except.error (DeError.schemaTypeMismatch "description" "string")
  else if kv.1 = "url" then
    match kv.2 with
    | Json.str s => Except.ok { st with url := some s }
    | _ => Except.error (DeError.schemaTypeMismatch "url" "string")
  else
    Except.ok { st with extensions := imInsert st.extensions kv.1 kv.2 }

/-- Left-to-right traversal of the incoming pairs, stopping at the first
error (first-error-wins). -/
def edRun (st : EdState) :
    List (String × Json) → Except DeError EdState
  | [] => Except.ok st
  | kv :: rest =>
    match edStep st kv with
    | Except.ok st2 => edRun st2 rest
    | Except.error e => Except.error e

/-- Modelled from the spec: deserialization of an
`ExternalDocumentation` value — the input must be an object, the required
`url` must be present after the scan, unmatched keys having been
collected into the nested extensions map. -/
def ExternalDocumentation.deserialize (v : Json) :
    Except DeError ExternalDocumentation :=
  match v with
  | Json.obj kvs =>
    match edRun {} kvs with
    | Except.error e => Except.error e
    | Except.ok st =>
      match st.url with
      | some u =>
        Except.ok { description := st.description, url := u,
                    extensions := st.extensions }
      | none => Except.error (DeError.missingRequiredField "url")
  | _ => Except.error (DeError.schemaTypeMismatch "externalDocs" "object")

/-- Intermediate deserialization state for `Tag`: each typed field seen so
far, plus the extensions collected from unmatched keys. -/
structure DeState where
  name : Option String := none
  description : Option String := none
  external_docs : Option ExternalDocumentation := none
  extensions : List (String × Json) := []

/-- Modelled from the spec: one step of `Tag` deserialization. A key
matching a recognized wire key (`name`, `description`, `externalDocs`)
binds to its typed field, last occurrence winning; a value of the wrong
shape fails with `schemaTypeMismatch`; any other key is inserted into the
extensions map. -/
def deStep (st : DeState) (kv : String × Json) : Except DeError DeState :=
  if kv.1 = "name" then
    match kv.2 with
    | Json.str s => Except.ok { st with name := some s }
    | _ => Except.error (DeError.schemaTypeMismatch "name" "string")
  else if kv.1 = "description" then
    match kv.2 with
    | Json.str s => Except.ok { st with description := some s }
    | _ => Except.error (DeError.schemaTypeMismatch "description" "string")
  else if kv.1 = "externalDocs" then
    match ExternalDocumentation.deserialize kv.2 with
    | Except.ok e => Except.ok { st with external_docs := some e }
    | Except.error err => Except.error err
  else
    Except.ok { st with extensions := imInsert st.extensions kv.1 kv.2 }

/-- Left-to-right traversal of the incoming top-level pairs, stopping at
the first error. -/
def runDe (st : DeState) : List (String × Json) → Except DeError DeState
  | [] => Except.ok st
  | kv :: rest =>
    match deStep st kv with
    | Except.ok st2 => runDe st2 rest
    | Except.error e => Except.error e

/-- Modelled from the spec: deserialization of a `Tag` from the ordered
sequence of incoming top-level key/value pairs (the serde-derived
`Deserialize` impl and `crate::util::deserialize_extensions` are not under
`src/`). The required `name` missing after the scan fails with
`missingRequiredField "name"`. -/
def Tag.deserialize (input : List (String × Json)) : Except DeError Tag :=
  match runDe {} input with
  | Except.error e => Except.error e
  | Except.ok st =>
    match st.name with
    | none => Except.error (DeError.missingRequiredField "name")
    | some n =>
      Except.ok
        { name := n, description := st.description,
          external_docs := st.external_docs, extensions := st.extensions }

/-- The wire keys of `Tag`'s typed fields. -/
def wireKeys : List String := ["name", "description", "externalDocs"]

/-- Boolean test for membership in `wireKeys`. -/
def isWireKey (k : String) : Bool :=
  k == "name" || k == "description" || k == "externalDocs"

/-- The wire keys of `ExternalDocumentation`'s typed fields. -/
def edWireKeys : List String := ["description", "url"]

/-- Boolean test for membership in `edWireKeys`. -/
def isEdWireKey (k : String) : Bool :=
  k == "description" || k == "url"

theorem isWireKey_eq_false_iff (k : String) :
    isWireKey k = false ↔ k ≠ "name" ∧ k ≠ "description" ∧ k ≠ "externalDocs" := by
  simp [isWireKey, not_or, and_assoc]

theorem mem_wireKeys_iff (k : String) : k ∈ wireKeys ↔ isWireKey k = true := by
  simp [wireKeys, isWireKey, or_assoc]

/-- Lookup in an insertion-ordered map modelled as an association list
(`IndexMap::get`): the value of the first entry whose key matches. -/
def imLookup (m : List (String × Json)) (k : String) : Option Json :=
  match m with
  | [] => none
  | p :: rest => if p.1 = k then some p.2 else imLookup rest k

theorem imLookup_eq_none_of_not_mem {m : List (String × Json)} {k : String}
    (h : k ∉ m.map Prod.fst) : imLookup m k = none := by
  induction m with
  | nil => rfl
  | cons p rest ih =>
    simp only [List.map_cons, List.mem_cons, not_or] at h
    simp only [imLookup]
    rw [if_neg (fun hk => h.1 (hk.symm)), ih h.2]

theorem imLookup_append (l1 l2 : List (String × Json)) (k : String) :
    imLookup (l1 ++ l2) k =
      match imLookup l1 k with
      | some v => some v
      | none => imLookup l2 k := by
  induction l1 with
  | nil => rfl
  | cons p rest ih =>
    by_cases h : p.1 = k
    · simp [imLookup, h]
    · simp only [List.cons_append, imLookup]
      rw [if_neg h, if_neg h]
      exact ih

theorem imInsert_not_mem {m : List (String × Json)} {k : String} (v : Json)
    (h : k ∉ m.map Prod.fst) : imInsert m k v = m ++ [(k, v)] := by
  simp [imInsert, h]

theorem imLookup_map_replace_self {m : List (String × Json)} {k : String} (v : Json)
    (h : k ∈ m.map Prod.fst) :
    imLookup (m.map (fun p => if p.1 = k then (k, v) else p)) k = some v := by
  induction m with
  | nil => simp at h
  | cons p rest ih =>
    by_cases hp : p.1 = k
    · simp [imLookup, hp]
    · simp only [List.map_cons, List.mem_cons] at h
      rcases h with h | h
      · exact absurd h.symm hp
      · simp only [List.map_cons, hp, if_false, imLookup]
        exact ih h

theorem imLookup_map_replace_ne (m : List (String × Json)) (k : String) (v : Json)
    {j : String} (h : j ≠ k) :
    imLookup (m.map (fun p => if p.1 = k then (k, v) else p)) j = imLookup m j := by
  induction m with
  | nil => rfl
  | cons p rest ih =>
    obtain ⟨k1, v1⟩ := p
    simp only [List.map_cons]
    by_cases hp : k1 = k
    · rw [if_pos hp]
      simp only [imLookup]
      rw [if_neg (fun hk : k = j => h hk.symm),
        if_neg (fun hj : k1 = j => h (hp ▸ hj).symm), ih]
    · rw [if_neg hp]
      simp only [imLookup]
      by_cases hj : k1 = j
      · rw [if_pos hj, if_pos hj]
      · rw [if_neg hj, if_neg hj, ih]

theorem imInsert_imLookup_self (m : List (String × Json)) (k : String) (v : Json) :
    imLookup (imInsert m k v) k = some v := by
  unfold imInsert
  by_cases h : k ∈ m.map Prod.fst
  · rw [if_pos h]
    exact imLookup_map_replace_self v h
  · rw [if_neg h, imLookup_append, imLookup_eq_none_of_not_mem h]
    simp [imLookup]

theorem imInsert_imLookup_ne (m : List (String × Json)) (k : String) (v : Json)
    {j : String} (h : j ≠ k) : imLookup (imInsert m k v) j = imLookup m j := by
  unfold imInsert
  by_cases hm : k ∈ m.map Prod.fst
  · rw [if_pos hm]
    exact imLookup_map_replace_ne m k v h
  · rw [if_neg hm, imLookup_append]
    cases hl : imLookup m j with
    | some v2 => rfl
    | none =>
      simp only [imLookup]
      rw [if_neg (fun hk => h hk.symm)]

theorem keys_map_replace (m : List (String × Json)) (k : String) (v : Json) :
    (m.map (fun p => if p.1 = k then (k, v) else p)).map Prod.fst = m.map Prod.fst := by
  induction m with
  | nil => rfl
  | cons p rest ih =>
    obtain ⟨k1, v1⟩ := p
    simp only [List.map_cons]
    by_cases hp : k1 = k
    · rw [if_pos hp, ih, hp]
    · rw [if_neg hp, ih]

theorem imInsert_keys (m : List (String × Json)) (k : String) (v : Json) :
    (imInsert m k v).map Prod.fst =
      if k ∈ m.map Prod.fst then m.map Prod.fst else m.map Prod.fst ++ [k] := by
  unfold imInsert
  by_cases h : k ∈ m.map Prod.fst
  · rw [if_pos h, if_pos h, keys_map_replace]
  · rw [if_neg h, if_neg h, List.map_append]
    rfl

theorem imExtend_nil (m : List (String × Json)) : imExtend m [] = m := rfl

theorem imExtend_cons (m : List (String × Json)) (p : String × Json)
    (rest : List (String × Json)) :
    imExtend m (p :: rest) = imExtend (imInsert m p.1 p.2) rest := rfl

theorem imExtend_append_of_fresh : ∀ {l m : List (String × Json)},
    (l.map Prod.fst).Nodup → (∀ p ∈ l, p.1 ∉ m.map Prod.fst) → imExtend m l = m ++ l := by
  intro l
  induction l with
  | nil => intro m _ _; simp [imExtend]
  | cons p rest ih =>
    intro m hn hd
    have hp : p.1 ∉ m.map Prod.fst := hd p (List.mem_cons_self p rest)
    simp only [List.map_cons, List.nodup_cons] at hn
    rw [imExtend_cons, imInsert_not_mem p.2 hp, ih hn.2 ?fresh]
    · rw [List.append_assoc]
      rfl
    case fresh =>
      intro q hq hmem
      rw [List.map_append, List.mem_append] at hmem
      rcases hmem with hm1 | hm1
      · exact hd q (List.mem_cons_of_mem p hq) hm1
      · simp only [List.map_cons, List.map_nil, List.mem_singleton] at hm1
        exact hn.1 (hm1 ▸ List.mem_map_of_mem Prod.fst hq)

theorem imExtend_imLookup (pairs : List (String × Json)) :
    ∀ (m : List (String × Json)) (k : String),
      imLookup (imExtend m pairs) k =
        match imLookup pairs.reverse k with
        | some v => some v
        | none => imLookup m k := by
  induction pairs with
  | nil => intro m k; rfl
  | cons p rest ih =>
    intro m k
    obtain ⟨k1, v1⟩ := p
    rw [imExtend_cons, ih, List.reverse_cons, imLookup_append]
    cases hr : imLookup rest.reverse k with
    | some v2 => rfl
    | none =>
      simp only
      by_cases hp : k1 = k
      · subst hp
        rw [imInsert_imLookup_self]
        simp [imLookup]
      · rw [imInsert_imLookup_ne m k1 v1 (fun hk : k = k1 => hp hk.symm)]
        simp [imLookup, hp]

theorem imExtend_keys (pairs : List (String × Json)) :
    ∀ m : List (String × Json),
      (imExtend m pairs).map Prod.fst =
        pairs.foldl (fun ks p => if p.1 ∈ ks then ks else ks ++ [p.1])
          (m.map Prod.fst) := by
  induction pairs with
  | nil => intro m; rfl
  | cons p rest ih =>
    intro m
    rw [imExtend_cons, ih, List.foldl_cons, imInsert_keys]

theorem isEdWireKey_eq_false_iff (k : String) :
    isEdWireKey k = false ↔ k ≠ "description" ∧ k ≠ "url" := by
  simp [isEdWireKey, not_or]

theorem mem_edWireKeys_iff (k : String) : k ∈ edWireKeys ↔ isEdWireKey k = true := by
  simp [edWireKeys, isEdWireKey]

theorem edStep_description (st : EdState) (s : String) :
    edStep st ("description", Json.str s) =
      Except.ok { st with description := some s } := rfl

theorem edStep_url (st : EdState) (s : String) :
    edStep st ("url", Json.str s) = Except.ok { st with url := some s } := rfl

theorem edStep_unmatched (st : EdState) (k : String) (v : Json)
    (h : isEdWireKey k = false) :
    edStep st (k, v) = Except.ok { st with extensions := imInsert st.extensions k v } := by
  rcases (isEdWireKey_eq_false_iff k).mp h with ⟨h1, h2⟩
  simp [edStep, h1, h2]

theorem edRun_unmatched : ∀ (l : List (String × Json)) (st : EdState),
    (∀ p ∈ l, isEdWireKey p.1 = false) →
    edRun st l = Except.ok { st with extensions := imExtend st.extensions l } := by
  intro l
  induction l with
  | nil => intro st _; rfl
  | cons p rest ih =>
    intro st hl
    obtain ⟨k, v⟩ := p
    have hk := hl (k, v) (List.mem_cons_self _ _)
    simp only [edRun, edStep_unmatched st k v hk]
    rw [ih _ (fun q hq => hl q (List.mem_cons_of_mem _ hq))]
    rfl

/-- Scanning a serialized `ExternalDocumentation` whose extension keys are
all unmatched binds the typed fields and collects exactly the
extensions. -/
theorem edRun_serialized (d : Option String) (u : String)
    (x : List (String × Json)) (hx : ∀ p ∈ x, isEdWireKey p.1 = false) :
    edRun {}
      ((match d with
        | some dd => [("description", Json.str dd)]
        | none => []) ++ [("url", Json.str u)] ++ x) =
      Except.ok ⟨d, some u, imExtend [] x⟩ := by
  cases d with
  | none =>
    simp only [List.nil_append, List.cons_append, edRun, edStep_url]
    exact edRun_unmatched x _ hx
  | some dd =>
    simp only [List.cons_append, List.nil_append, edRun, edStep_description, edStep_url]
    exact edRun_unmatched x _ hx

/-- Round-trip for the nested object: holds when its extension keys are
unique (the `IndexMap` invariant) and collide with none of its typed-field
wire keys. -/
theorem ed_roundtrip (e : ExternalDocumentation)
    (hnd : (e.extensions.map Prod.fst).Nodup)
    (hdisj : ∀ p ∈ e.extensions, p.1 ∉ edWireKeys) :
    ExternalDocumentation.deserialize e.serialize = Except.ok e := by
  obtain ⟨d, u, x⟩ := e
  have hdisj2 : ∀ p ∈ x, isEdWireKey p.1 = false := by
    intro p hp
    cases hw : isEdWireKey p.1 with
    | false => rfl
    | true => exact absurd ((mem_edWireKeys_iff p.1).mpr hw) (hdisj p hp)
  have hx : imExtend ([] : List (String × Json)) x = x :=
    (imExtend_append_of_fresh hnd (fun p _ hmem => by simp at hmem)).trans
      (List.nil_append x)
  simp only [ExternalDocumentation.serialize, ExternalDocumentation.deserialize,
    edRun_serialized d u x hdisj2, hx]

theorem deStep_name (st : DeState) (s : String) :
    deStep st ("name", Json.str s) = Except.ok { st with name := some s } := rfl

theorem deStep_description (st : DeState) (s : String) :
    deStep st ("description", Json.str s) =
      Except.ok { st with description := some s } := rfl

theorem deStep_externalDocs (st : DeState) (v : Json) (e : ExternalDocumentation)
    (h : ExternalDocumentation.deserialize v = Except.ok e) :
    deStep st ("externalDocs", v) = Except.ok { st with external_docs := some e } := by
  simp [deStep, h]

theorem deStep_unmatched (st : DeState) (k : String) (v : Json)
    (h : isWireKey k = false) :
    deStep st (k, v) = Except.ok { st with extensions := imInsert st.extensions k v } := by
  rcases (isWireKey_eq_false_iff k).mp h with ⟨h1, h2, h3⟩
  simp [deStep, h1, h2, h3]

/-- Inversion of a successful deserialization step: exactly one of the four
routing outcomes happened. -/
theorem deStep_ok_inv {st st2 : DeState} {k : String} {v : Json}
    (h : deStep st (k, v) = Except.ok st2) :
    (k = "name" ∧ ∃ s, v = Json.str s ∧ st2 = { st with name := some s })
    ∨ (k = "description" ∧ ∃ s, v = Json.str s ∧ st2 = { st with description := some s })
    ∨ (k = "externalDocs" ∧ ∃ e, ExternalDocumentation.deserialize v = Except.ok e ∧
        st2 = { st with external_docs := some e })
    ∨ (isWireKey k = false ∧
        st2 = { st with extensions := imInsert st.extensions k v }) := by
  simp only [deStep] at h
  by_cases h1 : k = "name"
  · rw [if_pos h1] at h
    cases v <;> simp only [reduceCtorEq, Except.ok.injEq] at h
    exact Or.inl ⟨h1, _, rfl, h.symm⟩
  · rw [if_neg h1] at h
    by_cases h2 : k = "description"
    · rw [if_pos h2] at h
      cases v <;> simp only [reduceCtorEq, Except.ok.injEq] at h
      exact Or.inr (Or.inl ⟨h2, _, rfl, h.symm⟩)
    · rw [if_neg h2] at h
      by_cases h3 : k = "externalDocs"
      · rw [if_pos h3] at h
        cases he : ExternalDocumentation.deserialize v with
        | ok e =>
          rw [he] at h
          simp only [Except.ok.injEq] at h
          exact Or.inr (Or.inr (Or.inl ⟨h3, e, rfl, h.symm⟩))
        | error err =>
          rw [he] at h
          simp at h
      · rw [if_neg h3] at h
        simp only [Except.ok.injEq] at h
        refine Or.inr (Or.inr (Or.inr ⟨?_, h.symm⟩))
        exact (isWireKey_eq_false_iff k).mpr ⟨h1, h2, h3⟩

theorem runDe_append (l1 l2 : List (String × Json)) :
    ∀ st : DeState,
      runDe st (l1 ++ l2) =
        match runDe st l1 with
        | Except.ok st1 => runDe st1 l2
        | Except.error e => Except.error e := by
  induction l1 with
  | nil => intro st; rfl
  | cons kv rest ih =>
    intro st
    simp only [List.cons_append, runDe]
    cases deStep st kv with
    | ok st2 => exact ih st2
    | error e => rfl

theorem runDe_unmatched : ∀ (l : List (String × Json)) (st : DeState),
    (∀ p ∈ l, isWireKey p.1 = false) →
    runDe st l = Except.ok { st with extensions := imExtend st.extensions l } := by
  intro l
  induction l with
  | nil => intro st _; rfl
  | cons p rest ih =>
    intro st hl
    obtain ⟨k, v⟩ := p
    have hk := hl (k, v) (List.mem_cons_self _ _)
    simp only [runDe, deStep_unmatched st k v hk]
    rw [ih _ (fun q hq => hl q (List.mem_cons_of_mem _ hq))]
    rfl

theorem runDe_name_frame : ∀ (l : List (String × Json)) (st st2 : DeState),
    (∀ p ∈ l, p.1 ≠ "name") → runDe st l = Except.ok st2 → st2.name = st.name := by
  intro l
  induction l with
  | nil =>
    intro st st2 _ h
    cases h
    rfl
  | cons kv rest ih =>
    intro st st2 hk h
    simp only [runDe] at h
    cases hd : deStep st kv with
    | error e => rw [hd] at h; cases h
    | ok stm =>
      rw [hd] at h
      rw [ih stm st2 (fun p hp => hk p (List.mem_cons_of_mem kv hp)) h]
      obtain ⟨k, v⟩ := kv
      rcases deStep_ok_inv hd with ⟨h1, _, _, hst⟩ | ⟨_, _, _, hst⟩ | ⟨_, _, _, hst⟩ | ⟨_, hst⟩
      · exact absurd h1 (hk (k, v) (List.mem_cons_self _ _))
      · rw [hst]
      · rw [hst]
      · rw [hst]

theorem runDe_description_frame : ∀ (l : List (String × Json)) (st st2 : DeState),
    (∀ p ∈ l, p.1 ≠ "description") → runDe st l = Except.ok st2 →
    st2.description = st.description := by
  intro l
  induction l with
  | nil =>
    intro st st2 _ h
    cases h
    rfl
  | cons kv rest ih =>
    intro st st2 hk h
    simp only [runDe] at h
    cases hd : deStep st kv with
    | error e => rw [hd] at h; cases h
    | ok stm =>
      rw [hd] at h
      rw [ih stm st2 (fun p hp => hk p (List.mem_cons_of_mem kv hp)) h]
      obtain ⟨k, v⟩ := kv
      rcases deStep_ok_inv hd with ⟨_, _, _, hst⟩ | ⟨h2, _, _, hst⟩ | ⟨_, _, _, hst⟩ | ⟨_, hst⟩
      · rw [hst]
      · exact absurd h2 (hk (k, v) (List.mem_cons_self _ _))
      · rw [hst]
      · rw [hst]

theorem runDe_externalDocs_frame : ∀ (l : List (String × Json)) (st st2 : DeState),
    (∀ p ∈ l, p.1 ≠ "externalDocs") → runDe st l = Except.ok st2 →
    st2.external_docs = st.external_docs := by
  intro l
  induction l with
  | nil =>
    intro st st2 _ h
    cases h
    rfl
  | cons kv rest ih =>
    intro st st2 hk h
    simp only [runDe] at h
    cases hd : deStep st kv with
    | error e => rw [hd] at h; cases h
    | ok stm =>
      rw [hd] at h
      rw [ih stm st2 (fun p hp => hk p (List.mem_cons_of_mem kv hp)) h]
      obtain ⟨k, v⟩ := kv
      rcases deStep_ok_inv hd with ⟨_, _, _, hst⟩ | ⟨_, _, _, hst⟩ | ⟨h3, _, _, hst⟩ | ⟨_, hst⟩
      · rw [hst]
      · rw [hst]
      · exact absurd h3 (hk (k, v) (List.mem_cons_self _ _))
      · rw [hst]

/-- The extensions accumulated by a successful scan are exactly the fold of
ordered insertions over the unmatched portion of the input. -/
theorem runDe_ext_char : ∀ (l : List (String × Json)) (st st2 : DeState),
    runDe st l = Except.ok st2 →
    st2.extensions = imExtend st.extensions (l.filter (fun p => !isWireKey p.1)) := by
  intro l
  induction l with
  | nil =>
    intro st st2 h
    cases h
    rfl
  | cons kv rest ih =>
    intro st st2 h
    simp only [runDe] at h
    cases hd : deStep st kv with
    | error e => rw [hd] at h; cases h
    | ok stm =>
      rw [hd] at h
      obtain ⟨k, v⟩ := kv
      rcases deStep_ok_inv hd with ⟨h1, _, _, hst⟩ | ⟨h2, _, _, hst⟩ | ⟨h3, _, _, hst⟩ |
        ⟨h4, hst⟩
      · rw [ih stm st2 h, hst]
        simp [List.filter, h1, isWireKey]
      · rw [ih stm st2 h, hst]
        simp [List.filter, h2, isWireKey]
      · rw [ih stm st2 h, hst]
        simp [List.filter, h3, isWireKey]
      · rw [ih stm st2 h, hst]
        simp [List.filter, h4, imExtend_cons]

theorem runDe_lookup_frame : ∀ (l : List (String × Json)) (st st2 : DeState)
    (k : String), (∀ p ∈ l, p.1 ≠ k) → runDe st l = Except.ok st2 →
    imLookup st2.extensions k = imLookup st.extensions k := by
  intro l
  induction l with
  | nil =>
    intro st st2 k _ h
    cases h
    rfl
  | cons kv rest ih =>
    intro st st2 k hk h
    simp only [runDe] at h
    cases hd : deStep st kv with
    | error e => rw [hd] at h; cases h
    | ok stm =>
      rw [hd] at h
      rw [ih stm st2 k (fun p hp => hk p (List.mem_cons_of_mem kv hp)) h]
      obtain ⟨k1, v⟩ := kv
      have hne : k ≠ k1 := fun he => hk (k1, v) (List.mem_cons_self _ _) he.symm
      rcases deStep_ok_inv hd with ⟨_, _, _, hst⟩ | ⟨_, _, _, hst⟩ | ⟨_, _, _, hst⟩ | ⟨_, hst⟩
      · rw [hst]
      · rw [hst]
      · rw [hst]
      · rw [hst]
        exact imInsert_imLookup_ne st.extensions k1 v hne

/-- Scanning the typed portion of a serialized `Tag` binds exactly the
typed fields, provided the nested object (when present) itself
round-trips. -/
theorem runDe_serializeTyped (v : Tag)
    (hed : ∀ e, v.external_docs = some e →
      ExternalDocumentation.deserialize e.serialize = Except.ok e) :
    runDe {} v.serializeTyped =
      Except.ok { name := some v.name, description := v.description,
                  external_docs := v.external_docs, extensions := [] } := by
  obtain ⟨n, d, e, x⟩ := v
  cases e with
  | none => cases d <;> rfl
  | some ed =>
    have h := hed ed rfl
    cases d with
    | none =>
      have hstep := deStep_externalDocs ⟨some n, none, none, []⟩
        (ExternalDocumentation.serialize ed) ed h
      simp only [Tag.serializeTyped, List.cons_append, List.nil_append, runDe,
        deStep_name, hstep]
    | some dd =>
      have hstep := deStep_externalDocs ⟨some n, some dd, none, []⟩
        (ExternalDocumentation.serialize ed) ed h
      simp only [Tag.serializeTyped, List.cons_append, List.nil_append, runDe,
        deStep_name, deStep_description, hstep]

/-- C1 counterexample: a Tag with empty (hence trivially non-colliding)
top-level extensions whose nested external_docs object carries an
extension key "url" colliding with the nested typed field. Serialization
appends the nested extension, giving the nested object two "url" entries;
deserialization resolves them last-occurrence-wins into the typed url
field, so the round-trip succeeds but yields a different Tag. -/
theorem claim_C1_cex :
    ((⟨"n", none, some ⟨none, "u", [("url", Json.str "w")]⟩, []⟩ : Tag)).extensions = []
    ∧ Tag.deserialize (Tag.serialize
        (⟨"n", none, some ⟨none, "u", [("url", Json.str "w")]⟩, []⟩ : Tag)) =
      Except.ok (⟨"n", none, some ⟨none, "w", []⟩, []⟩ : Tag)
    ∧ (⟨"n", none, some ⟨none, "w", []⟩, []⟩ : Tag) ≠
        (⟨"n", none, some ⟨none, "u", [("url", Json.str "w")]⟩, []⟩ : Tag) := by
  refine ⟨rfl, rfl, ?_⟩
  intro h
  simp [Tag.mk.injEq, ExternalDocumentation.mk.injEq] at h

/-- C1 (amended): for every Tag value whose extensions map (key-unique,
as every `IndexMap` is) contains no key equal to a typed-field wire key,
and whose external_docs object — itself an extensible object — when
present likewise has a key-unique extensions map containing no key equal
to one of its own typed-field wire keys ("description", "url"),
deserializing the serialization succeeds and reproduces the Tag
structurally: equal name, description, external_docs, and extensions as
ordered key/value sequences. -/
theorem claim_C1 (v : Tag)
    (hkeys : (v.extensions.map Prod.fst).Nodup)
    (hdisj : ∀ p ∈ v.extensions, p.1 ∉ wireKeys)
    (hed : ∀ e, v.external_docs = some e →
      (e.extensions.map Prod.fst).Nodup ∧ ∀ p ∈ e.extensions, p.1 ∉ edWireKeys) :
    Tag.deserialize (Tag.serialize v) = Except.ok v := by
  have hdisj2 : ∀ p ∈ v.extensions, isWireKey p.1 = false := by
    intro p hp
    cases hw : isWireKey p.1 with
    | false => rfl
    | true => exact absurd ((mem_wireKeys_iff p.1).mpr hw) (hdisj p hp)
  have hed2 : ∀ e, v.external_docs = some e →
      ExternalDocumentation.deserialize e.serialize = Except.ok e :=
    fun e he => ed_roundtrip e (hed e he).1 (hed e he).2
  have h1 := runDe_unmatched v.extensions
    { name := some v.name, description := v.description,
      external_docs := v.external_docs, extensions := [] } hdisj2
  rw [show imExtend ([] : List (String × Json)) v.extensions = v.extensions from
    (imExtend_append_of_fresh hkeys (fun p _ hmem => by simp at hmem)).trans
      (List.nil_append v.extensions)] at h1
  simp only [Tag.deserialize, Tag.serialize, runDe_append,
    runDe_serializeTyped v hed2, h1]

/-- C1 witness: a concrete round-trip through serialization, with a
nested extension on the external_docs object. -/
theorem claim_C1_witness :
    Tag.deserialize (Tag.serialize
      (⟨"pet", some "d", some ⟨none, "u", [("x-e", Json.bool true)]⟩,
        [("x-a", Json.num 1)]⟩ : Tag)) =
    Except.ok
      (⟨"pet", some "d", some ⟨none, "u", [("x-e", Json.bool true)]⟩,
        [("x-a", Json.num 1)]⟩ : Tag) :=
  claim_C1 _ (by decide) (by decide)
    (fun e he => by cases he; exact ⟨by decide, by decide⟩)

/-- C7: the extensions builder merges the given pairs into the existing
map with last-write-wins: the key sequence grows only by first-seen new
keys (an existing key keeps its position), a key's resulting value is the
last value given for it (falling back to the old map), and the concrete
chained example from the spec evaluates as stated. -/
theorem claim_C7 :
    (∀ (t : Tag) (pairs : List (String × Json)),
      (t.extensions' pairs).extensions.map Prod.fst =
        pairs.foldl (fun ks p => if p.1 ∈ ks then ks else ks ++ [p.1])
          (t.extensions.map Prod.fst))
    ∧ (∀ (t : Tag) (pairs : List (String × Json)) (k : String),
        imLookup (t.extensions' pairs).extensions k =
          match imLookup pairs.reverse k with
          | some v => some v
          | none => imLookup t.extensions k)
    ∧ (((Tag.new "n").extensions' [("a", Json.num 1)]).extensions'
          [("a", Json.num 2), ("b", Json.num 3)]).extensions =
        [("a", Json.num 2), ("b", Json.num 3)] := by
  refine ⟨fun t pairs => ?_, fun t pairs k => ?_, rfl⟩
  · exact imExtend_keys pairs t.extensions
  · exact imExtend_imLookup pairs t.extensions k

/-- C8: the extensions builder performs no collision check: any key,
including the typed wire keys, ends up in the extensions map bound to the
given value. -/
theorem claim_C8 :
    (∀ (t : Tag) (k : String) (v : Json),
      imLookup (t.extensions' [(k, v)]).extensions k = some v)
    ∧ ((Tag.new "t").extensions' [("name", Json.str "x")]).extensions =
        [("name", Json.str "x")]
    ∧ ((Tag.new "t").extensions' [("description", Json.null)]).extensions =
        [("description", Json.null)]
    ∧ ((Tag.new "t").extensions' [("externalDocs", Json.null)]).extensions =
        [("externalDocs", Json.null)] := by
  refine ⟨fun t k v => ?_, rfl, rfl, rfl⟩
  exact imInsert_imLookup_self t.extensions k v

/-- C9: each optional-field builder sets exactly its own field to `some`
of the argument and leaves every other field unchanged. -/
theorem claim_C9 :
    ∀ (t : Tag) (d : String) (e : ExternalDocumentation),
      ((t.description' d).name = t.name
        ∧ (t.description' d).description = some d
        ∧ (t.description' d).external_docs = t.external_docs
        ∧ (t.description' d).extensions = t.extensions)
      ∧ ((t.external_docs' e).name = t.name
        ∧ (t.external_docs' e).description = t.description
        ∧ (t.external_docs' e).external_docs = some e
        ∧ (t.external_docs' e).extensions = t.extensions) :=
  fun _ _ _ => ⟨⟨rfl, rfl, rfl, rfl⟩, ⟨rfl, rfl, rfl, rfl⟩⟩

/-- C10: repeated application of the same optional-field setter keeps only
the last value; the earlier value is discarded, not accumulated. -/
theorem claim_C10 :
    ∀ (t : Tag) (a b : String) (d1 d2 : ExternalDocumentation),
      (t.description' a).description' b = t.description' b
      ∧ (t.external_docs' d1).external_docs' d2 = t.external_docs' d2 :=
  fun _ _ _ _ _ => ⟨rfl, rfl⟩

/-- Inversion of a successful `Tag` deserialization: the scan succeeded
and its final state carries exactly the resulting Tag's fields. -/
theorem deserialize_ok_inv {input : List (String × Json)} {t : Tag}
    (h : Tag.deserialize input = Except.ok t) :
    ∃ st : DeState, runDe {} input = Except.ok st ∧ st.name = some t.name ∧
      st.description = t.description ∧ st.external_docs = t.external_docs ∧
      st.extensions = t.extensions := by
  unfold Tag.deserialize at h
  split at h
  · cases h
  · rename_i st hrun
    split at h
    · cases h
    · rename_i n hname
      simp only [Except.ok.injEq] at h
      subst h
      exact ⟨st, hrun, by rw [hname], rfl, rfl, rfl⟩

/-- C2 counterexample: an input with no "name" key whose deserialization
fails, but with a `schemaTypeMismatch` (on the earlier bad "description"
value), not with `missingRequiredField "name"` — the scan is
first-error-wins, so the missing-name error is not always the one
reported. -/
theorem claim_C2_cex :
    ("description" : String) ≠ "name"
    ∧ Tag.deserialize [("description", Json.bool true)] =
        Except.error (DeError.schemaTypeMismatch "description" "string")
    ∧ Tag.deserialize [("description", Json.bool true)] ≠
        Except.error (DeError.missingRequiredField "name") := by
  refine ⟨by decide, rfl, ?_⟩
  intro h
  rw [show Tag.deserialize [("description", Json.bool true)] =
    Except.error (DeError.schemaTypeMismatch "description" "string") from rfl] at h
  simp at h

/-- C2 (amended): an input with no "name" key never deserializes
successfully; when the scan itself reports no earlier error — in
particular for the empty mapping — the failure is
`missingRequiredField "name"`; and an input lacking only the optional
keys succeeds with those fields absent. -/
theorem claim_C2 :
    (∀ input : List (String × Json), (∀ p ∈ input, p.1 ≠ "name") →
      ∀ t : Tag, Tag.deserialize input ≠ Except.ok t)
    ∧ (∀ (input : List (String × Json)) (st : DeState),
        (∀ p ∈ input, p.1 ≠ "name") → runDe {} input = Except.ok st →
        Tag.deserialize input = Except.error (DeError.missingRequiredField "name"))
    ∧ Tag.deserialize [] = Except.error (DeError.missingRequiredField "name")
    ∧ (∀ n : String, Tag.deserialize [("name", Json.str n)] =
        Except.ok { name := n, description := none, external_docs := none,
                    extensions := [] }) := by
  have key : ∀ (input : List (String × Json)) (st : DeState),
      (∀ p ∈ input, p.1 ≠ "name") → runDe {} input = Except.ok st →
      Tag.deserialize input = Except.error (DeError.missingRequiredField "name") := by
    intro input st hnm hrun
    have hname : st.name = none := runDe_name_frame input {} st hnm hrun
    simp only [Tag.deserialize, hrun, hname]
  refine ⟨?_, key, rfl, fun n => rfl⟩
  intro input hnm t hok
  cases hrun : runDe {} input with
  | error e =>
    rw [Tag.deserialize, hrun] at hok
    simp at hok
  | ok st =>
    rw [key input st hnm hrun] at hok
    simp at hok

/-- C2 witness: the amended claim applied at concrete inputs. -/
theorem claim_C2_witness :
    Tag.deserialize [(("x-a" : String), Json.null)] ≠ Except.ok (Tag.new "a")
    ∧ Tag.deserialize [] = Except.error (DeError.missingRequiredField "name") :=
  ⟨claim_C2.1 [("x-a", Json.null)] (by decide) (Tag.new "a"), claim_C2.2.2.1⟩

/-- C3: duplicate occurrences of a top-level wire key are resolved
last-occurrence-wins, uniformly for the typed keys and extension keys:
the spec's concrete duplicate-name example, the general statement for the
typed key "name", and the general statement for an unrecognized key. -/
theorem claim_C3 :
    Tag.deserialize [("name", Json.str "a"), ("name", Json.str "b")] =
      Except.ok (Tag.new "b")
    ∧ (∀ (l1 l2 : List (String × Json)) (s : String) (t : Tag),
        (∀ p ∈ l2, p.1 ≠ "name") →
        Tag.deserialize (l1 ++ ("name", Json.str s) :: l2) = Except.ok t →
        t.name = s)
    ∧ (∀ (l1 l2 : List (String × Json)) (k : String) (v : Json) (t : Tag),
        k ∉ wireKeys → (∀ p ∈ l2, p.1 ≠ k) →
        Tag.deserialize (l1 ++ (k, v) :: l2) = Except.ok t →
        imLookup t.extensions k = some v) := by
  refine ⟨rfl, ?_, ?_⟩
  · intro l1 l2 s t hl2 h
    obtain ⟨st, hrun, hname, -, -, -⟩ := deserialize_ok_inv h
    rw [runDe_append] at hrun
    cases hr1 : runDe {} l1 with
    | error e =>
      rw [hr1] at hrun
      simp at hrun
    | ok st1 =>
      rw [hr1] at hrun
      simp only [runDe, deStep_name] at hrun
      have := runDe_name_frame l2 _ st hl2 hrun
      rw [hname] at this
      exact Option.some.inj this.symm |>.symm
  · intro l1 l2 k v t hkw hl2 h
    have hkb : isWireKey k = false := by
      cases hw : isWireKey k with
      | false => rfl
      | true => exact absurd ((mem_wireKeys_iff k).mpr hw) hkw
    obtain ⟨st, hrun, -, -, -, hext⟩ := deserialize_ok_inv h
    rw [runDe_append] at hrun
    cases hr1 : runDe {} l1 with
    | error e =>
      rw [hr1] at hrun
      simp at hrun
    | ok st1 =>
      rw [hr1] at hrun
      simp only [runDe, deStep_unmatched st1 k v hkb] at hrun
      have hfr := runDe_lookup_frame l2 _ st k hl2 hrun
      rw [← hext, hfr]
      exact imInsert_imLookup_self st1.extensions k v

/-- C3 witness: last-occurrence-wins applied at the spec's concrete
duplicate-name input and at a concrete extension-key input. -/
theorem claim_C3_witness :
    (Tag.new "b").name = "b"
    ∧ imLookup ((⟨"n", none, none, [("x", Json.num 1)]⟩ : Tag)).extensions "x" =
        some (Json.num 1) :=
  ⟨claim_C3.2.1 [("name", Json.str "a")] [] "b" (Tag.new "b")
      (by decide) claim_C3.1,
   claim_C3.2.2 [("name", Json.str "n")] [] "x" (Json.num 1) _
      (by decide) (by decide) rfl⟩

/-- C4: every unrecognized top-level key lands in the resulting
extensions map with its value kept untouched: the extensions equal the
ordered-insertion fold over exactly the unmatched portion of the input;
when the unmatched keys are distinct their relative input order is
preserved verbatim; and the spec's concrete example evaluates as
stated. -/
theorem claim_C4 :
    (∀ (input : List (String × Json)) (t : Tag),
      Tag.deserialize input = Except.ok t →
      t.extensions = imExtend [] (input.filter (fun p => !isWireKey p.1)))
    ∧ (∀ (input : List (String × Json)) (t : Tag),
      Tag.deserialize input = Except.ok t →
      (((input.filter (fun p => !isWireKey p.1)).map Prod.fst).Nodup) →
      t.extensions = input.filter (fun p => !isWireKey p.1))
    ∧ Tag.deserialize [("name", Json.str "pet"), ("x-id", Json.str "0")] =
        Except.ok ⟨"pet", none, none, [("x-id", Json.str "0")]⟩ := by
  have key : ∀ (input : List (String × Json)) (t : Tag),
      Tag.deserialize input = Except.ok t →
      t.extensions = imExtend [] (input.filter (fun p => !isWireKey p.1)) := by
    intro input t h
    obtain ⟨st, hrun, -, -, -, hext⟩ := deserialize_ok_inv h
    rw [← hext]
    exact runDe_ext_char input {} st hrun
  refine ⟨key, ?_, rfl⟩
  intro input t h hnd
  rw [key input t h,
    imExtend_append_of_fresh hnd (fun p _ hmem => by simp at hmem),
    List.nil_append]

/-- C4 witness: the general characterization applied at the spec's
concrete example input. -/
theorem claim_C4_witness :
    ((⟨"pet", none, none, [("x-id", Json.str "0")]⟩ : Tag)).extensions =
      [("name", Json.str "pet"), ("x-id", Json.str "0")].filter
        (fun p => !isWireKey p.1) :=
  claim_C4.2.1 _ _ claim_C4.2.2 (by decide)

/-- C5 counterexample: a Tag whose description field is None but whose
extensions map contains a colliding "description" entry; serialization
appends every extension entry, so the output does contain a
"description" key, contradicting the unqualified claim. -/
theorem claim_C5_cex :
    ((⟨"", none, none, [("description", Json.null)]⟩ : Tag)).description = none
    ∧ ("description", Json.null) ∈
        Tag.serialize (⟨"", none, none, [("description", Json.null)]⟩ : Tag) :=
  ⟨rfl, by simp [Tag.serialize, Tag.serializeTyped]⟩

/-- C5 (amended): for a Tag whose extensions do not themselves contain
the wire key in question, an absent optional field is omitted entirely
from the serialized output (no null placeholder, no key at all), while
the required name field is always emitted. -/
theorem claim_C5 :
    (∀ t : Tag, t.description = none →
      (∀ p ∈ t.extensions, p.1 ≠ "description") →
      ∀ v : Json, ("description", v) ∉ Tag.serialize t)
    ∧ (∀ t : Tag, t.external_docs = none →
      (∀ p ∈ t.extensions, p.1 ≠ "externalDocs") →
      ∀ v : Json, ("externalDocs", v) ∉ Tag.serialize t)
    ∧ (∀ t : Tag, ("name", Json.str t.name) ∈ Tag.serialize t) := by
  refine ⟨?_, ?_, ?_⟩
  · intro t hd hext v hmem
    cases he : t.external_docs with
    | none =>
      simp [Tag.serialize, Tag.serializeTyped, hd, he] at hmem
      exact hext _ hmem rfl
    | some e =>
      simp [Tag.serialize, Tag.serializeTyped, hd, he] at hmem
      exact hext _ hmem rfl
  · intro t he hext v hmem
    cases hd : t.description with
    | none =>
      simp [Tag.serialize, Tag.serializeTyped, hd, he] at hmem
      exact hext _ hmem rfl
    | some d =>
      simp [Tag.serialize, Tag.serializeTyped, hd, he] at hmem
      exact hext _ hmem rfl
  · intro t
    simp [Tag.serialize, Tag.serializeTyped]

/-- C5 witness: omission applied at a concrete Tag with both optional
fields absent. -/
theorem claim_C5_witness :
    ("description", Json.null) ∉ Tag.serialize (Tag.new "pet")
    ∧ ("externalDocs", Json.null) ∉ Tag.serialize (Tag.new "pet") :=
  ⟨claim_C5.1 (Tag.new "pet") rfl (by decide) Json.null,
   claim_C5.2.1 (Tag.new "pet") rfl (by decide) Json.null⟩

/-- C6: the field renaming table is applied consistently: a present
external_docs field is emitted under the wire key "externalDocs"; the
typed emission never uses the semantic name "external_docs" (and the full
output has no such key unless an unrelated extension carries it); on
input, only "externalDocs" populates the typed field, while an incoming
"external_docs" key is routed to the extensions map. -/
theorem claim_C6 :
    (∀ (t : Tag) (e : ExternalDocumentation), t.external_docs = some e →
      ("externalDocs", e.serialize) ∈ Tag.serialize t)
    ∧ (∀ (t : Tag) (v : Json), ("external_docs", v) ∉ Tag.serializeTyped t)
    ∧ (∀ (t : Tag) (v : Json), (∀ p ∈ t.extensions, p.1 ≠ "external_docs") →
        ("external_docs", v) ∉ Tag.serialize t)
    ∧ (∀ (input : List (String × Json)) (t : Tag),
        Tag.deserialize input = Except.ok t →
        (∀ p ∈ input, p.1 ≠ "externalDocs") → t.external_docs = none)
    ∧ (∀ (n : String) (v : Json),
        Tag.deserialize [("name", Json.str n), ("external_docs", v)] =
          Except.ok ⟨n, none, none, [("external_docs", v)]⟩) := by
  have typed : ∀ (t : Tag) (v : Json), ("external_docs", v) ∉ Tag.serializeTyped t := by
    intro t v hmem
    cases hd : t.description <;> cases he : t.external_docs <;>
      simp [Tag.serializeTyped, hd, he] at hmem
  refine ⟨?_, typed, ?_, ?_, fun n v => rfl⟩
  · intro t e he
    simp [Tag.serialize, Tag.serializeTyped, he]
  · intro t v hext hmem
    rw [Tag.serialize, List.mem_append] at hmem
    rcases hmem with hm | hm
    · exact typed t v hm
    · exact hext _ hm rfl
  · intro input t h hin
    obtain ⟨st, hrun, -, -, hed, -⟩ := deserialize_ok_inv h
    rw [← hed]
    exact runDe_externalDocs_frame input {} st hin hrun

/-- C6 witness: renaming applied at concrete values in both directions. -/
theorem claim_C6_witness :
    ("externalDocs",
        ExternalDocumentation.serialize ⟨none, "u", []⟩) ∈
      Tag.serialize ((Tag.new "a").external_docs' ⟨none, "u", []⟩)
    ∧ ((⟨"x", none, none, []⟩ : Tag)).external_docs = none :=
  ⟨claim_C6.1 _ _ rfl,
   claim_C6.2.2.2.1 [("name", Json.str "x")] _ rfl (by decide)⟩
